import Mathlib

/-!
# Verification of the unit-aware symbolic-regression core of `rustamath_physics`

Shallow embedding of the repository's core (`src/lib.rs`, `src/equations.rs`,
`src/regression.rs`, `src/regression/fit.rs`, and the nine catalog equations)
into Lean 4, together with theorems settling the frozen claims about it.

## Modelling conventions

* IEEE-754 `f64` values are modelled by the type `F`: either NaN, one of the
  two infinities, or a finite value represented exactly by a rational number.
  Arithmetic on `F` follows the IEEE special-value rules (NaN propagation,
  infinity arithmetic, division by zero) but performs finite arithmetic
  exactly over `ℚ` instead of with rounding; the claims under verification
  concern ordering, control flow, special values and arithmetic identities
  that are exact at the inputs involved, never rounding behaviour.
  Negative zero is identified with zero (`-0.0 == 0.0` holds for `f64`
  comparisons, which is all the code under verification uses).
* External collaborators (`rustamath_mnmz::amoeba`, `f64::sin`, `f64::sqrt`)
  are not part of this repository; they are modelled as an explicit parameter
  `Collab` and every theorem quantifies over it.  The numerical knobs of the
  `amoeba` call (`delta = 0.1`, `ftol = 1.0e-3`, `nmax = 150`) are constants
  at the single call site and are absorbed into the abstract minimizer.
* A Rust panic (failed `assert!`, out-of-bounds index, `partial_cmp(..).unwrap()`
  on NaN, the explicit `panic!()` in `fit`) is modelled by `Option.none`.
* Worker threads in `find_equation` are spawned per candidate and joined in
  spawn order, each returning a pure value; the concurrency therefore erases
  to a sequential traversal in spawn order (`collectFits`).
* `Vec::sort_unstable_by` on slices of at most 20 elements is insertion sort
  in the Rust standard library, which preserves the relative order of
  elements the comparator declares equal; the candidate list here has at most
  9 elements (the catalog size), so the sort is modelled as insertion sort
  with a fallible comparator (`none` models the `unwrap` panic on a NaN
  comparison).
-/

/-- Model of an `f64` value: NaN, ±infinity, or an exact finite value. -/
inductive F where
  | nan  : F
  | inf  : F
  | ninf : F
  | fin  : ℚ → F
deriving DecidableEq, Repr

namespace F

/-- IEEE-style addition on `F` (exact in the finite case). -/
def fadd : F → F → F
  | nan, _ => nan
  | _, nan => nan
  | inf, ninf => nan
  | ninf, inf => nan
  | inf, _ => inf
  | _, inf => inf
  | ninf, _ => ninf
  | _, ninf => ninf
  | fin a, fin b => fin (a + b)

/-- IEEE-style subtraction on `F` (exact in the finite case). -/
def fsub : F → F → F
  | nan, _ => nan
  | _, nan => nan
  | inf, inf => nan
  | ninf, ninf => nan
  | inf, _ => inf
  | ninf, _ => ninf
  | _, inf => ninf
  | _, ninf => inf
  | fin a, fin b => fin (a - b)

/-- IEEE-style multiplication on `F` (exact in the finite case). -/
def fmul : F → F → F
  | nan, _ => nan
  | _, nan => nan
  | inf, inf => inf
  | inf, ninf => ninf
  | ninf, inf => ninf
  | ninf, ninf => inf
  | inf, fin b => if b = 0 then nan else if 0 < b then inf else ninf
  | fin a, inf => if a = 0 then nan else if 0 < a then inf else ninf
  | ninf, fin b => if b = 0 then nan else if 0 < b then ninf else inf
  | fin a, ninf => if a = 0 then nan else if 0 < a then ninf else inf
  | fin a, fin b => fin (a * b)

/-- IEEE-style division on `F` (exact in the finite case; zero is unsigned,
so `x / 0 = +∞` for `x > 0`, matching `f64` division by `+0.0`). -/
def fdiv : F → F → F
  | nan, _ => nan
  | _, nan => nan
  | inf, inf => nan
  | inf, ninf => nan
  | ninf, inf => nan
  | ninf, ninf => nan
  | inf, fin b => if 0 ≤ b then inf else ninf
  | ninf, fin b => if 0 ≤ b then ninf else inf
  | fin _, inf => fin 0
  | fin _, ninf => fin 0
  | fin a, fin b =>
      if b = 0 then (if a = 0 then nan else if 0 < a then inf else ninf)
      else fin (a / b)

/-- Model of `f64::partial_cmp`: `none` iff either operand is NaN;
`-∞ < finite < +∞`, finite values by their exact rational order. -/
def fcmp : F → F → Option Ordering
  | nan, _ => none
  | _, nan => none
  | inf, inf => some Ordering.eq
  | inf, _ => some Ordering.gt
  | _, inf => some Ordering.lt
  | ninf, ninf => some Ordering.eq
  | ninf, _ => some Ordering.lt
  | _, ninf => some Ordering.gt
  | fin a, fin b =>
      some (if a < b then Ordering.lt else if b < a then Ordering.gt else Ordering.eq)

/-- Strict `<` as decided by `fcmp` (false whenever a NaN is involved). -/
def flt (a b : F) : Prop := fcmp a b = some Ordering.lt

/-- Non-strict `≤` as decided by `fcmp` (false whenever a NaN is involved). -/
def fle (a b : F) : Prop := flt a b ∨ a = b

theorem flt_fin_iff {a b : ℚ} : flt (fin a) (fin b) ↔ a < b := by
  unfold flt fcmp
  rcases lt_trichotomy a b with h | h | h
  · simp [h]
  · subst h; simp [lt_irrefl]
  · simp [lt_asymm h, h]

theorem fcmp_some_eq {a b : F} (h : fcmp a b = some Ordering.eq) : a = b := by
  cases a <;> cases b <;>
    first
      | rfl
      | exact Option.noConfusion h
      | exact Ordering.noConfusion (Option.some.inj h)
      | skip
  case fin.fin x y =>
    have h' := Option.some.inj h
    by_cases h1 : x < y
    · rw [if_pos h1] at h'; exact absurd h' (by decide)
    · by_cases h2 : y < x
      · rw [if_neg h1, if_pos h2] at h'; exact absurd h' (by decide)
      · exact congrArg fin (le_antisymm (le_of_not_lt h2) (le_of_not_lt h1))

theorem fcmp_some_gt {a b : F} (h : fcmp a b = some Ordering.gt) : flt b a := by
  cases a <;> cases b <;>
    first
      | exact Option.noConfusion h
      | exact Ordering.noConfusion (Option.some.inj h)
      | rfl
      | skip
  case fin.fin x y =>
    have h' := Option.some.inj h
    by_cases h1 : x < y
    · rw [if_pos h1] at h'; exact absurd h' (by decide)
    · by_cases h2 : y < x
      · exact flt_fin_iff.mpr h2
      · rw [if_neg h1, if_neg h2] at h'; exact absurd h' (by decide)

theorem fcmp_some_ne_nan {a b : F} {o : Ordering} (h : fcmp a b = some o) :
    a ≠ nan ∧ b ≠ nan := by
  cases a <;> cases b <;>
    first
      | exact Option.noConfusion h
      | exact ⟨fun hc => F.noConfusion hc, fun hc => F.noConfusion hc⟩

theorem fcmp_nan_left {b : F} : fcmp nan b = none := by
  cases b <;> rfl

theorem fcmp_nan_right {a : F} : fcmp a nan = none := by
  cases a <;> rfl

theorem flt_trans {a b c : F} (hab : flt a b) (hbc : flt b c) : flt a c := by
  unfold flt at hab hbc ⊢
  cases a <;> cases b <;> cases c <;>
    first
      | exact Option.noConfusion hab
      | exact Option.noConfusion hbc
      | exact Ordering.noConfusion (Option.some.inj hab)
      | exact Ordering.noConfusion (Option.some.inj hbc)
      | rfl
      | skip
  case fin.fin.fin x y z =>
    exact flt_fin_iff.mpr (lt_trans (flt_fin_iff.mp hab) (flt_fin_iff.mp hbc))

end F

/-- MKS unit tags used by the catalog (`rustamath_mks`): opaque identifiers
for pairwise-distinct dimension-exponent vectors, compared by equality. -/
inductive MksUnit where
  | scalar   : MksUnit
  | distance : MksUnit
  | area     : MksUnit
  | time     : MksUnit
  | velocity : MksUnit
  | accel    : MksUnit
deriving DecidableEq, Repr

/-- External numeric collaborators, not part of this repository:
`rustamath_mnmz::amoeba` (with its constant knobs `delta = 0.1`,
`ftol = 1.0e-3`, `nmax = 150` absorbed), `f64::sin` and `f64::sqrt`.
Every theorem quantifies over this parameter. -/
structure Collab where
  minimize : (List F → F) → List F → List F
  fsin : F → F
  fsqrt : F → F

/-- Catalog entry (`BuildTuple` in `src/equations.rs`): description, unit
signature, and the composition of the `new` factory with the instance's
`run` method.  Every concrete equation instance in the source is memoryless
across `run` calls (each `calc` overwrites all state), so `new` + `run`
is a pure function of the constants and the inputs.  `none` models the
panic on an out-of-range index into the constants or input slice. -/
structure BuildTuple where
  desc : String
  outUnits : List MksUnit
  cnsUnits : List MksUnit
  inpUnits : List MksUnit
  run : Collab → List F → List F → Option (List F)

/-- The `f64` value of `std::f64::consts::PI`, which is an exact rational. -/
def pi64 : ℚ := 884279719003555 / 281474976710656

/-- `figure::circle::CirclePerimeter`: `2.0 * PI * r`; no constants. -/
def circlePerimeter : BuildTuple where
  desc := "Circumference of circle `C = 2*Pi*r`"
  outUnits := [MksUnit.distance]
  cnsUnits := []
  inpUnits := [MksUnit.distance]
  run := fun _ _ inp =>
    match inp with
    | r :: _ => some [F.fmul (F.fmul (F.fin 2) (F.fin pi64)) r]
    | [] => none

/-- `figure::circle::CircleArea`: `PI * r * r`; no constants. -/
def circleArea : BuildTuple where
  desc := "Area of circle `A = Pi*r^2`"
  outUnits := [MksUnit.area]
  cnsUnits := []
  inpUnits := [MksUnit.distance]
  run := fun _ _ inp =>
    match inp with
    | r :: _ => some [F.fmul (F.fmul (F.fin pi64) r) r]
    | [] => none

/-- `figure::rectangle::SquarePerimeter`: `4.0 * side`; no constants. -/
def squarePerimeter : BuildTuple where
  desc := "Perimeter of square `P = 4*side`"
  outUnits := [MksUnit.distance]
  cnsUnits := []
  inpUnits := [MksUnit.distance]
  run := fun _ _ inp =>
    match inp with
    | s :: _ => some [F.fmul (F.fin 4) s]
    | [] => none

/-- `figure::rectangle::SquareArea`: `s * s`; no constants. -/
def squareArea : BuildTuple where
  desc := "Area of square `A = side*side`"
  outUnits := [MksUnit.area]
  cnsUnits := []
  inpUnits := [MksUnit.distance]
  run := fun _ _ inp =>
    match inp with
    | s :: _ => some [F.fmul s s]
    | [] => none

/-- `function::sin::Sine`: `sin(angle*speed + phase)*amplitude + shift`;
constants `[amplitude, speed, phase, shift]`. -/
def sine : BuildTuple where
  desc := "Sine wave `v = A*sin(Speed*t + Phase) + Offset`"
  outUnits := [MksUnit.scalar]
  cnsUnits := [MksUnit.scalar, MksUnit.scalar, MksUnit.scalar, MksUnit.scalar]
  inpUnits := [MksUnit.scalar]
  run := fun c cns inp =>
    match cns, inp with
    | amplitude :: speed :: phase :: shift :: _, angle :: _ =>
        some [F.fadd (F.fmul (c.fsin (F.fadd (F.fmul angle speed) phase)) amplitude) shift]
    | _, _ => none

/-- `mechanics::linear_motion::const_accel::VelocityEquation`:
`v = v0 + a*t`; constants `[v0, a]`. -/
def velocityEquation : BuildTuple where
  desc := "Linear motion const accel velocity `v = v0 + a*t`"
  outUnits := [MksUnit.velocity]
  cnsUnits := [MksUnit.velocity, MksUnit.accel]
  inpUnits := [MksUnit.time]
  run := fun _ cns inp =>
    match cns, inp with
    | v0 :: a :: _, t :: _ => some [F.fadd v0 (F.fmul a t)]
    | _, _ => none

/-- `mechanics::linear_motion::const_accel::VelocityByDistEquation`:
`v = sqrt(v0*v0 + (2*a)*s)`; constants `[v0, a]`. -/
def velocityByDistEquation : BuildTuple where
  desc := "Linear motion const accel velocity `v = sqrt(v0^2 + 2*a*s)`"
  outUnits := [MksUnit.velocity]
  cnsUnits := [MksUnit.velocity, MksUnit.accel]
  inpUnits := [MksUnit.distance]
  run := fun c cns inp =>
    match cns, inp with
    | v0 :: a :: _, d :: _ =>
        some [c.fsqrt (F.fadd (F.fmul v0 v0) (F.fmul (F.fmul (F.fin 2) a) d))]
    | _, _ => none

/-- `mechanics::linear_motion::const_accel::DistanceEquation`:
`s = v0*t + (a*t*t)/2`; constants `[v0, a]`. -/
def distanceEquation : BuildTuple where
  desc := "Linear motion const accel distance `s = v0*t + (a*t^2)/2`"
  outUnits := [MksUnit.distance]
  cnsUnits := [MksUnit.velocity, MksUnit.accel]
  inpUnits := [MksUnit.time]
  run := fun _ cns inp =>
    match cns, inp with
    | v0 :: a :: _, t :: _ =>
        some [F.fadd (F.fmul v0 t) (F.fdiv (F.fmul (F.fmul a t) t) (F.fin 2))]
    | _, _ => none

/-- `mechanics::linear_motion::const_accel::DistanceByVelEquation`:
`s = (v0 + v) * t * 0.5`; constants `[v0, v]`. -/
def distanceByVelEquation : BuildTuple where
  desc := "Linear motion const accel distance `s = t*(v0 + v)/2`"
  outUnits := [MksUnit.distance]
  cnsUnits := [MksUnit.velocity, MksUnit.velocity]
  inpUnits := [MksUnit.time]
  run := fun _ cns inp =>
    match cns, inp with
    | v0 :: v :: _, t :: _ =>
        some [F.fmul (F.fmul (F.fadd v0 v) t) (F.fin (1 / 2))]
    | _, _ => none

/-- The catalog `EQUATIONS` of `src/equations.rs`, in source order. -/
def EQUATIONS : List BuildTuple :=
  [circlePerimeter, circleArea, squarePerimeter, squareArea, sine,
   velocityEquation, velocityByDistEquation, distanceEquation,
   distanceByVelEquation]

/-- `find_equation_by_units` of `src/lib.rs`: indices of the catalog entries
whose `out` sequence equals `outputs` and `inp` sequence equals `inputs`,
collected by a single enumerate-filter pass in catalog order. -/
def find_equation_by_units (inputs outputs : List MksUnit) : List ℕ :=
  ((EQUATIONS.enum.filter
      (fun p => p.2.outUnits == outputs && p.2.inpUnits == inputs)).map Prod.fst)

/-- The closure `fun_chi2` built inside `fit_multidimensions`
(`src/regression/fit.rs`): sum over measurements of the squared difference
between `outputs[i]` and the first component of the model prediction at row
`i`, with a fresh instance per evaluation.  A Rust panic inside the closure
(constants vector of the wrong arity handed in by the external minimizer, or
an empty prediction) is represented by `F.nan`; it is unreachable for
catalog entries evaluated at the arity used by `fit`, and the closure's
values only flow into the abstract external minimizer. -/
def fun_chi2 (c : Collab) (builder : BuildTuple) (inputs outputs : List F)
    (nr_measurements nr_inp_params : ℕ) (params_to_fit : List F) : F :=
  (List.range nr_measurements).foldl (fun chi2 i =>
    match builder.run c params_to_fit
        ((inputs.drop (i * nr_inp_params)).take nr_inp_params) with
    | some (p :: _) =>
        let diff := F.fsub (outputs.getD i (F.fin 0)) p
        F.fadd chi2 (F.fmul diff diff)
    | _ => F.nan) (F.fin 0)

/-- `fit_multidimensions` of `src/regression/fit.rs`: hand `fun_chi2` and the
initial parameter vector to the external `amoeba` minimizer and copy the
minimizing vertex back into the parameter slice (`copy_from_slice` panics,
i.e. `none`, if the external minimizer returns a vector of a different
length). -/
def fit_multidimensions (c : Collab) (builder : BuildTuple)
    (inputs outputs params : List F) (nr_measurements nr_inp_params : ℕ) :
    Option (List F) :=
  let res := c.minimize
    (fun_chi2 c builder inputs outputs nr_measurements nr_inp_params) params
  if res.length = params.length then some res else none

/-- `fit` of `src/regression/fit.rs`: panics (`none`) when the parameter
vector has length exactly 1, otherwise dispatches to
`fit_multidimensions`. -/
def fit (c : Collab) (builder : BuildTuple) (inputs outputs params : List F)
    (nr_measurements nr_inp_params : ℕ) : Option (List F) :=
  if params.length = 1 then none
  else fit_multidimensions c builder inputs outputs params
    nr_measurements nr_inp_params

/-- Lines 95–102 of `src/regression.rs`: the constants vector handed to the
equation factory — `[1.0; K]`, updated by `fit` exactly when
`K > 0 && M >= K`. -/
def equationConstants (c : Collab) (eb : BuildTuple) (inputs outputs : List F)
    (nr_measurements nr_inp_params : ℕ) : Option (List F) :=
  let k := eb.cnsUnits.length
  let init : List F := List.replicate k (F.fin 1)
  if 0 < k ∧ k ≤ nr_measurements then
    fit c eb inputs outputs init nr_measurements nr_inp_params
  else some init

/-- Lines 104–113 of `src/regression.rs`: one prediction row per measurement,
appended in order (`List.flatten` models the repeated `Vec::append`). -/
def predictionsOf (c : Collab) (eb : BuildTuple) (cns inputs : List F)
    (nr_measurements nr_inp_params : ℕ) : Option (List F) :=
  ((List.range nr_measurements).mapM (fun i =>
    eb.run c cns ((inputs.drop (i * nr_inp_params)).take nr_inp_params))).map
    List.flatten

/-- Lines 117–127 of `src/regression.rs`: the χ² accumulation loop,
`chi2 += (diff*diff)/(sigma*sigma)` over measurements and output components,
with `sigma = 1.0` when the sigma buffer is empty.  Out-of-range reads are
impossible at every reachable call (the index `i*nrOut + j` stays below
`M*nrOut`, which is bounded by the lengths of `outputs`, `predictions` and a
non-empty `ssigmas` thanks to the guards in `goodness_of_fit`), so the
`getD` defaults are never used. -/
def chi2Loop (outputs predictions ssigmas : List F)
    (nr_measurements nr_out_params : ℕ) : F :=
  (List.range nr_measurements).foldl (fun acc i =>
    (List.range nr_out_params).foldl (fun acc2 j =>
      let k := i * nr_out_params + j
      let diff := F.fsub (outputs.getD k (F.fin 0)) (predictions.getD k (F.fin 0))
      let sigma := if ssigmas.isEmpty then F.fin 1 else ssigmas.getD k (F.fin 0)
      F.fadd acc2 (F.fdiv (F.fmul diff diff) (F.fmul sigma sigma))) acc)
    (F.fin 0)

/-- `goodness_of_fit` of `src/regression.rs`.  `none` models each panic:
catalog index out of range, the sigma-length assert, division by a zero
arity (`usize` division panics), the measurement-count assert, a panic
inside `fit`, a panic inside an equation's `run`, the `nr_out_params == 1`
assert, and an out-of-range read of `predictions` in the χ² loop (the one
indexing in the loop not already covered by the earlier guards). -/
def goodness_of_fit (c : Collab) (id : ℕ)
    (inputs outputs ssigmas : List F) : Option F :=
  match EQUATIONS[id]? with
  | none => none
  | some eb =>
    let nr_out_params := eb.outUnits.length
    let nr_cns_params := eb.cnsUnits.length
    let nr_inp_params := eb.inpUnits.length
    if ¬ (ssigmas.isEmpty ∨ ssigmas.length = outputs.length) then none
    else if nr_inp_params = 0 then none
    else
      let nr_measurements := inputs.length / nr_inp_params
      if nr_out_params = 0 then none
      else if outputs.length / nr_out_params ≠ nr_measurements then none
      else
        match equationConstants c eb inputs outputs
            nr_measurements nr_inp_params with
        | none => none
        | some equation_constants =>
          match predictionsOf c eb equation_constants inputs
              nr_measurements nr_inp_params with
          | none => none
          | some predictions =>
            if nr_out_params ≠ 1 then none
            else if predictions.length < nr_measurements * nr_out_params then
              none
            else
              let chi2 := chi2Loop outputs predictions ssigmas
                nr_measurements nr_out_params
              let degrees_of_freedom :=
                if nr_measurements > nr_cns_params then
                  nr_measurements - nr_cns_params
                else 1
              some (F.fdiv chi2 (F.fin (degrees_of_freedom : ℚ)))

/-- The worker loop of `find_equation` (`src/regression.rs`, lines 40–54):
one worker per candidate id, joined in spawn order; each returns
`(id, goodness_of_fit id inputs outputs [])`, and a worker panic propagates
through `join().unwrap()`. -/
def collectFits (c : Collab) (inputs outputs : List F) :
    List ℕ → Option (List (ℕ × F))
  | [] => some []
  | id :: rest =>
    match goodness_of_fit c id inputs outputs [] with
    | none => none
    | some g => (collectFits c inputs outputs rest).map (fun r => (id, g) :: r)

/-- One insertion step of the standard library's insertion sort with the
comparator `a.1.partial_cmp(&b.1).unwrap()`: `none` models the `unwrap`
panic on a NaN comparison.  (The Rust implementation scans the sorted prefix
from the right; starting from an empty accumulator the two scan orders
perform a NaN-involving comparison in exactly the same situations and
produce identical results, see `sortPairs`.) -/
def insertPair (x : ℕ × F) : List (ℕ × F) → Option (List (ℕ × F))
  | [] => some [x]
  | y :: ys =>
    match F.fcmp x.2 y.2 with
    | none => none
    | some Ordering.lt => some (x :: y :: ys)
    | some _ => (insertPair x ys).map (fun r => y :: r)

/-- `eqs.sort_unstable_by(|a, b| a.1.partial_cmp(&b.1).unwrap())`:
insertion sort (what `sort_unstable_by` runs for slices of at most 20
elements; at most 9 candidates exist here) with the fallible comparator. -/
def sortPairs (l : List (ℕ × F)) : Option (List (ℕ × F)) :=
  l.foldlM (fun acc x => insertPair x acc) []

/-- `find_equation` of `src/regression.rs`: filter the catalog by units,
score every candidate with an empty sigma buffer, sort by χ². -/
def find_equation (c : Collab) (unit_inputs unit_outputs : List MksUnit)
    (inputs outputs : List F) : Option (List (ℕ × F)) :=
  match collectFits c inputs outputs
      (find_equation_by_units unit_inputs unit_outputs) with
  | none => none
  | some eqs => sortPairs eqs

/-- A concrete collaborator used for closed evaluations; the inputs chosen
for those evaluations never reach `minimize`, `fsin` or `fsqrt`. -/
def defaultCollab : Collab where
  minimize := fun _ x0 => x0
  fsin := fun _ => F.nan
  fsqrt := fun _ => F.nan

/-- The ranking order that `find_equation`'s output satisfies: strictly
smaller χ², or equal χ² with strictly smaller catalog index. -/
def rankedBefore (a b : ℕ × F) : Prop :=
  F.flt a.2 b.2 ∨ (a.2 = b.2 ∧ a.1 < b.1)

theorem insertPair_subset {x : ℕ × F} :
    ∀ {acc r : List (ℕ × F)}, insertPair x acc = some r →
      ∀ z ∈ r, z ∈ acc ∨ z = x := by
  intro acc
  induction acc with
  | nil =>
    intro r h z hz
    rw [insertPair] at h
    cases h
    rcases List.mem_singleton.mp hz with rfl
    exact Or.inr rfl
  | cons y ys ih =>
    intro r h z hz
    rw [insertPair] at h
    cases hc : F.fcmp x.2 y.2 with
    | none => rw [hc] at h; exact Option.noConfusion h
    | some o =>
      rw [hc] at h
      have step : ∀ r', insertPair x ys = some r' → z ∈ y :: r' →
          z ∈ y :: ys ∨ z = x := by
        intro r' hr' hz'
        rcases List.mem_cons.mp hz' with rfl | hz'
        · exact Or.inl (List.mem_cons_self _ _)
        · rcases ih hr' z hz' with hz'' | hz''
          · exact Or.inl (List.mem_cons_of_mem _ hz'')
          · exact Or.inr hz''
      cases o with
      | lt =>
        cases h
        rcases List.mem_cons.mp hz with rfl | hz
        · exact Or.inr rfl
        · exact Or.inl hz
      | eq =>
        rcases Option.map_eq_some'.mp h with ⟨r', hr', hre⟩
        subst hre
        exact step r' hr' hz
      | gt =>
        rcases Option.map_eq_some'.mp h with ⟨r', hr', hre⟩
        subst hre
        exact step r' hr' hz

theorem insertPair_length {x : ℕ × F} :
    ∀ {acc r : List (ℕ × F)}, insertPair x acc = some r →
      r.length = acc.length + 1 := by
  intro acc
  induction acc with
  | nil =>
    intro r h
    rw [insertPair] at h
    cases h
    rfl
  | cons y ys ih =>
    intro r h
    rw [insertPair] at h
    cases hc : F.fcmp x.2 y.2 with
    | none => rw [hc] at h; exact Option.noConfusion h
    | some o =>
      rw [hc] at h
      cases o with
      | lt => cases h; rfl
      | eq =>
        rcases Option.map_eq_some'.mp h with ⟨r', hr', hre⟩
        subst hre
        simp [ih hr']
      | gt =>
        rcases Option.map_eq_some'.mp h with ⟨r', hr', hre⟩
        subst hre
        simp [ih hr']

/-- A successful insertion yields a NaN-free result whenever the result has
length ≥ 2 (assuming the same of the accumulator): the inserted element and
the previous head were actually compared by the comparator. -/
theorem insertPair_nanFree {x : ℕ × F} {acc r : List (ℕ × F)}
    (h : insertPair x acc = some r)
    (hacc : 1 < acc.length → ∀ p ∈ acc, p.2 ≠ F.nan) :
    1 < r.length → ∀ p ∈ r, p.2 ≠ F.nan := by
  intro hlen p hp
  cases acc with
  | nil =>
    rw [insertPair] at h
    cases h
    exact absurd hlen (by simp)
  | cons y ys =>
    have hxy : ∃ o, F.fcmp x.2 y.2 = some o := by
      rw [insertPair] at h
      cases hc : F.fcmp x.2 y.2 with
      | none => rw [hc] at h; exact Option.noConfusion h
      | some o => exact ⟨o, rfl⟩
    rcases hxy with ⟨o, ho⟩
    have hx : x.2 ≠ F.nan := (F.fcmp_some_ne_nan ho).1
    have hy : y.2 ≠ F.nan := (F.fcmp_some_ne_nan ho).2
    rcases insertPair_subset h p hp with hmem | rfl
    · rcases List.mem_cons.mp hmem with rfl | hmem
      · exact hy
      · cases ys with
        | nil => simp at hmem
        | cons z zs =>
          exact hacc (by simp) p (List.mem_cons_of_mem _ hmem)
    · exact hx

/-- Inserting an element whose catalog index exceeds every index already in
the accumulator preserves the ranking order of the accumulator. -/
theorem insertPair_pairwise {x : ℕ × F} :
    ∀ {acc r : List (ℕ × F)}, acc.Pairwise rankedBefore →
      (∀ p ∈ acc, p.1 < x.1) → insertPair x acc = some r →
      r.Pairwise rankedBefore := by
  intro acc
  induction acc with
  | nil =>
    intro r _ _ h
    rw [insertPair] at h
    cases h
    exact List.pairwise_singleton _ _
  | cons y ys ih =>
    intro r hpw hidx h
    rw [insertPair] at h
    cases hc : F.fcmp x.2 y.2 with
    | none => rw [hc] at h; exact Option.noConfusion h
    | some o =>
      rw [hc] at h
      rcases List.pairwise_cons.mp hpw with ⟨hyz, hys⟩
      cases o with
      | lt =>
        cases h
        refine List.pairwise_cons.mpr ⟨?_, hpw⟩
        intro z hz
        rcases List.mem_cons.mp hz with rfl | hz
        · exact Or.inl hc
        · rcases hyz z hz with hlt | ⟨heq, _⟩
          · exact Or.inl (F.flt_trans hc hlt)
          · exact Or.inl (heq ▸ hc)
      | eq =>
        rcases Option.map_eq_some'.mp h with ⟨r', hr', hre⟩
        subst hre
        have hxy : x.2 = y.2 := F.fcmp_some_eq hc
        refine List.pairwise_cons.mpr ⟨?_, ?_⟩
        · intro z hz
          rcases insertPair_subset hr' z hz with hz' | rfl
          · exact hyz z hz'
          · exact Or.inr ⟨hxy.symm, hidx y (List.mem_cons_self _ _)⟩
        · exact ih hys (fun p hp => hidx p (List.mem_cons_of_mem _ hp)) hr'
      | gt =>
        rcases Option.map_eq_some'.mp h with ⟨r', hr', hre⟩
        subst hre
        have hyx : F.flt y.2 x.2 := F.fcmp_some_gt hc
        refine List.pairwise_cons.mpr ⟨?_, ?_⟩
        · intro z hz
          rcases insertPair_subset hr' z hz with hz' | rfl
          · exact hyz z hz'
          · exact Or.inl hyx
        · exact ih hys (fun p hp => hidx p (List.mem_cons_of_mem _ hp)) hr'

/-- The insertion-sort fold produces a ranking-ordered list whenever it
succeeds, provided the pending elements carry strictly ascending catalog
indices larger than everything already inserted. -/
theorem foldIns_pairwise :
    ∀ (l : List (ℕ × F)) (acc r : List (ℕ × F)),
      acc.Pairwise rankedBefore →
      l.Pairwise (fun a b => a.1 < b.1) →
      (∀ p ∈ acc, ∀ q ∈ l, p.1 < q.1) →
      List.foldlM (fun acc x => insertPair x acc) acc l = some r →
      r.Pairwise rankedBefore := by
  intro l
  induction l with
  | nil =>
    intro acc r hacc _ _ h
    rw [List.foldlM_nil] at h
    cases h
    exact hacc
  | cons x xs ih =>
    intro acc r hacc hpw hsep h
    rw [List.foldlM_cons] at h
    cases hins : insertPair x acc with
    | none => rw [hins] at h; exact Option.noConfusion h
    | some acc' =>
      rw [hins] at h
      rcases List.pairwise_cons.mp hpw with ⟨hxq, hxs⟩
      refine ih acc' r ?_ hxs ?_ h
      · exact insertPair_pairwise hacc
          (fun p hp => hsep p hp x (List.mem_cons_self _ _)) hins
      · intro p hp q hq
        rcases insertPair_subset hins p hp with hp' | rfl
        · exact hsep p hp' q (List.mem_cons_of_mem _ hq)
        · exact hxq q hq

/-- The insertion-sort fold fails (the comparator hits a NaN) whenever a NaN
is present and at least two elements are involved in total. -/
theorem foldIns_none :
    ∀ (l acc : List (ℕ × F)),
      (1 < acc.length → ∀ p ∈ acc, p.2 ≠ F.nan) →
      ((∃ p ∈ acc, p.2 = F.nan) ∨ (∃ p ∈ l, p.2 = F.nan)) →
      2 ≤ acc.length + l.length →
      List.foldlM (fun acc x => insertPair x acc) acc l = none := by
  intro l
  induction l with
  | nil =>
    intro acc hnf hnan hlen
    rcases hnan with ⟨p, hp, hpnan⟩ | ⟨p, hp, _⟩
    · simp only [List.length_nil, Nat.add_zero] at hlen
      exact absurd hpnan (hnf hlen p hp)
    · simp at hp
  | cons x xs ih =>
    intro acc hnf hnan hlen
    rw [List.foldlM_cons]
    cases hins : insertPair x acc with
    | none => rfl
    | some acc' =>
      have hsub := insertPair_subset hins
      have hlen' := insertPair_length hins
      have hnf' := insertPair_nanFree hins hnf
      have step : List.foldlM (fun acc x => insertPair x acc) acc' xs = none := by
        refine ih acc' hnf' ?_ ?_
        · rcases hnan with ⟨p, hp, hpnan⟩ | ⟨p, hp, hpnan⟩
          · -- a NaN already sits in the accumulator; since the insertion
            -- succeeded the accumulator must have been empty or the NaN
            -- would have been compared — handle via the comparator facts
            cases acc with
            | nil => simp at hp
            | cons y ys =>
              have hxy : ∃ o, F.fcmp x.2 y.2 = some o := by
                rw [insertPair] at hins
                cases hc : F.fcmp x.2 y.2 with
                | none => rw [hc] at hins; exact Option.noConfusion hins
                | some o => exact ⟨o, rfl⟩
              rcases hxy with ⟨o, ho⟩
              have hy : y.2 ≠ F.nan := (F.fcmp_some_ne_nan ho).2
              rcases List.mem_cons.mp hp with rfl | hp'
              · exact absurd hpnan hy
              · cases ys with
                | nil => simp at hp'
                | cons z zs =>
                  exact absurd hpnan (hnf (by simp) p (List.mem_cons_of_mem _ hp'))
          · rcases List.mem_cons.mp hp with rfl | hp'
            · -- the inserted element itself is the NaN: the insertion can
              -- only have succeeded into an empty accumulator
              cases acc with
              | nil =>
                rw [insertPair] at hins
                cases hins
                exact Or.inl ⟨p, List.mem_singleton_self _, hpnan⟩
              | cons y ys =>
                have hxy : ∃ o, F.fcmp p.2 y.2 = some o := by
                  rw [insertPair] at hins
                  cases hc : F.fcmp p.2 y.2 with
                  | none => rw [hc] at hins; exact Option.noConfusion hins
                  | some o => exact ⟨o, rfl⟩
                rcases hxy with ⟨o, ho⟩
                exact absurd hpnan (F.fcmp_some_ne_nan ho).1
            · exact Or.inr ⟨p, hp', hpnan⟩
        · rw [hlen']
          simp only [List.length_cons] at hlen
          omega
      simpa using step

/-- The worker loop pairs each candidate id with its score, in id order. -/
theorem collectFits_fst {c : Collab} {inputs outputs : List F} :
    ∀ {ids : List ℕ} {eqs : List (ℕ × F)},
      collectFits c inputs outputs ids = some eqs →
      eqs.map Prod.fst = ids := by
  intro ids
  induction ids with
  | nil =>
    intro eqs h
    rw [collectFits] at h
    cases h
    rfl
  | cons id rest ih =>
    intro eqs h
    rw [collectFits] at h
    cases hg : goodness_of_fit c id inputs outputs [] with
    | none => rw [hg] at h; exact Option.noConfusion h
    | some g =>
      rw [hg] at h
      rcases Option.map_eq_some'.mp h with ⟨r', hr', hre⟩
      subst hre
      simp [ih hr']

/-- Membership characterization of the unit filter: exactly the catalog
indices whose signature matches. -/
theorem mem_find_equation_by_units {uin uout : List MksUnit} {i : ℕ} :
    i ∈ find_equation_by_units uin uout ↔
      ∃ eb, EQUATIONS[i]? = some eb ∧ eb.outUnits = uout ∧ eb.inpUnits = uin := by
  unfold find_equation_by_units
  constructor
  · intro h
    rcases List.mem_map.mp h with ⟨p, hp, hfst⟩
    rcases List.mem_filter.mp hp with ⟨henum, hpred⟩
    rcases (Bool.and_eq_true _ _).mp hpred with ⟨hout, hinp⟩
    refine ⟨p.2, ?_, eq_of_beq hout, eq_of_beq hinp⟩
    rw [← hfst]
    exact List.mem_enum_iff_getElem?.mp henum
  · intro ⟨eb, hget, hout, hinp⟩
    refine List.mem_map.mpr ⟨(i, eb), ?_, rfl⟩
    refine List.mem_filter.mpr ⟨?_, ?_⟩
    · exact List.mem_enum_iff_getElem?.mpr hget
    · exact (Bool.and_eq_true _ _).mpr ⟨beq_iff_eq.mpr hout, beq_iff_eq.mpr hinp⟩

/-- The unit filter returns indices in strictly ascending catalog order. -/
theorem find_equation_by_units_pairwise (uin uout : List MksUnit) :
    (find_equation_by_units uin uout).Pairwise (· < ·) := by
  unfold find_equation_by_units
  refine List.pairwise_map.mpr ?_
  refine List.Pairwise.filter _ ?_
  have h : (EQUATIONS.enum.map Prod.fst).Pairwise (· < ·) := by
    rw [List.enum_map_fst]
    exact List.pairwise_lt_range _
  exact List.pairwise_map.mp h

namespace F

/-- "NaN or nonnegative (possibly +∞)": the co-domain of every χ² value. -/
def nnOrNan (v : F) : Prop := v = nan ∨ fle (fin 0) v

theorem fle_fin_iff {a b : ℚ} : fle (fin a) (fin b) ↔ a ≤ b := by
  unfold fle
  rw [flt_fin_iff]
  constructor
  · rintro (h | h)
    · exact le_of_lt h
    · exact le_of_eq (fin.inj h)
  · intro h
    rcases lt_or_eq_of_le h with h' | h'
    · exact Or.inl h'
    · exact Or.inr (congrArg fin h')

theorem nnOrNan_fin {q : ℚ} (h : 0 ≤ q) : nnOrNan (fin q) :=
  Or.inr (fle_fin_iff.mpr h)

theorem nnOrNan_inf : nnOrNan inf := Or.inr (Or.inl rfl)

theorem not_nnOrNan_ninf (h : nnOrNan ninf) : False := by
  rcases h with h | h | h
  · exact F.noConfusion h
  · exact Ordering.noConfusion (Option.some.inj h)
  · exact F.noConfusion h

theorem sq_nnOrNan (d : F) : nnOrNan (fmul d d) := by
  cases d with
  | nan => exact Or.inl rfl
  | inf => exact nnOrNan_inf
  | ninf => exact nnOrNan_inf
  | fin a => exact nnOrNan_fin (mul_self_nonneg a)

theorem fadd_nnOrNan {a b : F} (ha : nnOrNan a) (hb : nnOrNan b) :
    nnOrNan (fadd a b) := by
  cases a with
  | nan => cases b <;> exact Or.inl rfl
  | ninf => exact absurd ha not_nnOrNan_ninf
  | inf =>
    cases b with
    | nan => exact Or.inl rfl
    | ninf => exact absurd hb not_nnOrNan_ninf
    | inf => exact nnOrNan_inf
    | fin y => exact nnOrNan_inf
  | fin x =>
    cases b with
    | nan => exact Or.inl rfl
    | ninf => exact absurd hb not_nnOrNan_ninf
    | inf => exact nnOrNan_inf
    | fin y =>
      rcases ha with ha | ha
      · exact F.noConfusion ha
      · rcases hb with hb | hb
        · exact F.noConfusion hb
        · exact nnOrNan_fin (add_nonneg (fle_fin_iff.mp ha) (fle_fin_iff.mp hb))

theorem fdiv_nnOrNan {a b : F} (ha : nnOrNan a) (hb : nnOrNan b) :
    nnOrNan (fdiv a b) := by
  cases a with
  | nan => cases b <;> exact Or.inl rfl
  | ninf => exact absurd ha not_nnOrNan_ninf
  | inf =>
    cases b with
    | nan => exact Or.inl rfl
    | ninf => exact absurd hb not_nnOrNan_ninf
    | inf => exact Or.inl rfl
    | fin y =>
      have hy : 0 ≤ y := by
        rcases hb with hb | hb
        · exact F.noConfusion hb
        · exact fle_fin_iff.mp hb
      simp only [fdiv, if_pos hy]
      exact nnOrNan_inf
  | fin x =>
    have hx : 0 ≤ x := by
      rcases ha with ha | ha
      · exact F.noConfusion ha
      · exact fle_fin_iff.mp ha
    cases b with
    | nan => exact Or.inl rfl
    | ninf => exact absurd hb not_nnOrNan_ninf
    | inf => exact nnOrNan_fin le_rfl
    | fin y =>
      have hy : 0 ≤ y := by
        rcases hb with hb | hb
        · exact F.noConfusion hb
        · exact fle_fin_iff.mp hb
      by_cases hy0 : y = 0
      · rcases lt_or_eq_of_le hx with hx' | hx'
        · simp only [fdiv, if_pos hy0, if_neg (ne_of_gt hx'), if_pos hx']
          exact nnOrNan_inf
        · simp only [fdiv, if_pos hy0, if_pos hx'.symm]
          exact Or.inl rfl
      · simp only [fdiv, if_neg hy0]
        exact nnOrNan_fin (div_nonneg hx hy)

theorem fadd_fin (a b : ℚ) : fadd (fin a) (fin b) = fin (a + b) := rfl

theorem fsub_fin (a b : ℚ) : fsub (fin a) (fin b) = fin (a - b) := rfl

theorem fmul_fin (a b : ℚ) : fmul (fin a) (fin b) = fin (a * b) := rfl

theorem fdiv_fin (a : ℚ) {b : ℚ} (h : b ≠ 0) :
    fdiv (fin a) (fin b) = fin (a / b) := by
  show (if b = 0 then (if a = 0 then nan else if 0 < a then inf else ninf)
      else fin (a / b)) = fin (a / b)
  rw [if_neg h]

theorem fcmp_fin_of_eq {a b : ℚ} (h : a = b) :
    fcmp (fin a) (fin b) = some Ordering.eq := by
  subst h
  show some (if a < a then Ordering.lt
      else if a < a then Ordering.gt else Ordering.eq) = some Ordering.eq
  rw [if_neg (lt_irrefl a), if_neg (lt_irrefl a)]

theorem fdiv_fin_one (t : F) : fdiv t (fin 1) = t := by
  cases t with
  | nan => rfl
  | inf => simp [fdiv, zero_le_one]
  | ninf => simp [fdiv, zero_le_one]
  | fin a => simp [fdiv, one_ne_zero]

end F

/-- An `fadd`-accumulation fold stays NaN-or-nonnegative when every
accumulated term is. -/
theorem foldl_fadd_nnOrNan {β : Type} (term : F → β → F) :
    ∀ (l : List β) (acc : F), F.nnOrNan acc →
      (∀ a k, F.nnOrNan a → F.nnOrNan (term a k)) →
      F.nnOrNan (l.foldl term acc) := by
  intro l
  induction l with
  | nil => intro acc hacc _; exact hacc
  | cons k ks ih =>
    intro acc hacc hterm
    rw [List.foldl_cons]
    exact ih (term acc k) (hterm acc k hacc) hterm

/-- Pointwise-equal step functions fold identically. -/
theorem foldl_congr_fun {α β : Type} {f g : α → β → α} :
    ∀ (l : List β) (a : α), (∀ x y, f x y = g x y) →
      l.foldl f a = l.foldl g a := by
  intro l
  induction l with
  | nil => intro a _; rfl
  | cons x xs ih =>
    intro a h
    rw [List.foldl_cons, List.foldl_cons, h]
    exact ih _ h

/-- Written to the spec's words (§4.4/§8.7): the raw unweighted χ², the sum
over measurements of the squared residual with every `σ = 1` (single-output
case, `No = 1`). -/
def spec_raw_chi2 (outputs predictions : List F) (nr_measurements : ℕ) : F :=
  (List.range nr_measurements).foldl (fun acc i =>
    let diff := F.fsub (outputs.getD i (F.fin 0)) (predictions.getD i (F.fin 0))
    F.fadd acc (F.fmul diff diff)) (F.fin 0)

/-- Written to the spec's words (§4.4 step 7 and §8.7): fetch, validate,
fit-or-default constants, predict, then return `χ²_raw / max(M − K, 1)`,
for an empty sigma buffer.  The validation, constants and prediction steps
are those of the code; only the final reduced-χ² expression follows the
spec's formula, to be compared against `goodness_of_fit`. -/
def spec_reduced_chi2_unweighted (c : Collab) (id : ℕ)
    (inputs outputs : List F) : Option F :=
  match EQUATIONS[id]? with
  | none => none
  | some eb =>
    let nr_out_params := eb.outUnits.length
    let nr_cns_params := eb.cnsUnits.length
    let nr_inp_params := eb.inpUnits.length
    if nr_inp_params = 0 then none
    else
      let nr_measurements := inputs.length / nr_inp_params
      if nr_out_params = 0 then none
      else if outputs.length / nr_out_params ≠ nr_measurements then none
      else
        match equationConstants c eb inputs outputs
            nr_measurements nr_inp_params with
        | none => none
        | some equation_constants =>
          match predictionsOf c eb equation_constants inputs
              nr_measurements nr_inp_params with
          | none => none
          | some predictions =>
            if nr_out_params ≠ 1 then none
            else if predictions.length < nr_measurements * nr_out_params then
              none
            else
              some (F.fdiv (spec_raw_chi2 outputs predictions nr_measurements)
                (F.fin ((max (nr_measurements - nr_cns_params) 1 : ℕ) : ℚ)))

/-- With an empty sigma buffer the per-term weight is `1²` and the inner
output-component loop ranges over the single output, so the code's χ²
loop computes the spec's raw χ². -/
theorem chi2Loop_empty_sigmas (outputs predictions : List F)
    (nr_measurements : ℕ) :
    chi2Loop outputs predictions [] nr_measurements 1 =
      spec_raw_chi2 outputs predictions nr_measurements := by
  unfold chi2Loop spec_raw_chi2
  refine foldl_congr_fun _ _ ?_
  intro acc i
  show (List.range 1).foldl _ acc = _
  have hr : List.range 1 = [0] := rfl
  rw [hr, List.foldl_cons, List.foldl_nil]
  simp only [List.isEmpty_nil, if_true, Nat.mul_one, Nat.add_zero]
  have h1 : F.fmul (F.fin 1) (F.fin 1) = F.fin 1 := by
    show F.fin (1 * 1) = F.fin 1
    norm_num
  rw [h1, F.fdiv_fin_one]

/-- The code's degrees-of-freedom expression is the spec's `max(M − K, 1)`. -/
theorem dof_eq_max (m k : ℕ) :
    (if m > k then m - k else 1) = max (m - k) 1 := by
  rcases Nat.lt_or_ge k m with h | h
  · rw [if_pos h, Nat.max_eq_left (by omega)]
  · rw [if_neg (by omega), Nat.max_eq_right (by omega)]

/-- C3: `find_equation_by_units(inputs, outputs)` returns exactly the
catalog indices whose signature satisfies `out == outputs` and
`inp == inputs` as ordered sequences (soundness and completeness), in
ascending catalog order. -/
theorem find_equation_by_units_sound_complete (uin uout : List MksUnit) :
    (find_equation_by_units uin uout).Pairwise (· < ·) ∧
    ∀ i : ℕ, i ∈ find_equation_by_units uin uout ↔
      ∃ eb, EQUATIONS[i]? = some eb ∧ eb.outUnits = uout ∧ eb.inpUnits = uin :=
  ⟨find_equation_by_units_pairwise uin uout,
   fun _ => mem_find_equation_by_units⟩

/-- C5: when the constants arity `K` is zero or the measurement count `M`
is smaller than `K`, the fitter is not invoked (the constants are the
default `[1.0; K]`, independent of the external minimizer); the fitter is
invoked exactly when `K > 0 ∧ M ≥ K`. -/
theorem equation_constants_fit_guard (c : Collab) (eb : BuildTuple)
    (inputs outputs : List F) (m ni : ℕ) :
    (eb.cnsUnits.length = 0 ∨ m < eb.cnsUnits.length →
      equationConstants c eb inputs outputs m ni =
        some (List.replicate eb.cnsUnits.length (F.fin 1))) ∧
    (0 < eb.cnsUnits.length ∧ eb.cnsUnits.length ≤ m →
      equationConstants c eb inputs outputs m ni =
        fit c eb inputs outputs
          (List.replicate eb.cnsUnits.length (F.fin 1)) m ni) := by
  constructor
  · intro h
    unfold equationConstants
    rw [if_neg]
    rcases h with h | h
    · rintro ⟨h1, -⟩; omega
    · rintro ⟨-, h2⟩; omega
  · intro h
    unfold equationConstants
    rw [if_pos h]

theorem equation_constants_fit_guard_witness :
    equationConstants defaultCollab velocityEquation
        [F.fin 10] [F.fin 23] 1 1 =
      some (List.replicate velocityEquation.cnsUnits.length (F.fin 1)) :=
  (equation_constants_fit_guard defaultCollab velocityEquation
    [F.fin 10] [F.fin 23] 1 1).1 (by decide)

/-- C6: `fit` panics unconditionally when the parameter vector has length
exactly 1, and dispatches to the multidimensional simplex for any other
nonzero length. -/
theorem fit_single_param_aborts (c : Collab) (builder : BuildTuple)
    (inputs outputs params : List F) (m ni : ℕ) :
    (params.length = 1 → fit c builder inputs outputs params m ni = none) ∧
    (params.length ≠ 1 → params ≠ [] →
      fit c builder inputs outputs params m ni =
        fit_multidimensions c builder inputs outputs params m ni) := by
  constructor
  · intro h; unfold fit; rw [if_pos h]
  · intro h _; unfold fit; rw [if_neg h]

theorem fit_single_param_aborts_witness :
    fit defaultCollab velocityEquation [] [] [F.fin 1] 0 1 = none :=
  (fit_single_param_aborts defaultCollab velocityEquation
    [] [] [F.fin 1] 0 1).1 rfl

/-- C8: every one of the nine catalog descriptors declares exactly one
output unit, so the `nr_out_params == 1` assertion in `goodness_of_fit`
holds for every catalog entry. -/
theorem equations_single_output :
    ∀ id : Fin EQUATIONS.length, ((EQUATIONS.get id).outUnits).length = 1 := by
  decide

/-- C9: every catalog entry's constants arity is 0, 2 or 4 — never 1 — and
consequently `equationConstants` (the only route from `goodness_of_fit`
into `fit`) always takes `fit`'s multidimensional dispatch, never its
length-1 panic branch. -/
theorem equations_cns_arity_not_one :
    ∀ id : Fin EQUATIONS.length,
      (((EQUATIONS.get id).cnsUnits).length = 0 ∨
       ((EQUATIONS.get id).cnsUnits).length = 2 ∨
       ((EQUATIONS.get id).cnsUnits).length = 4) ∧
      ∀ (c : Collab) (inputs outputs : List F) (m ni : ℕ),
        equationConstants c (EQUATIONS.get id) inputs outputs m ni =
          if 0 < ((EQUATIONS.get id).cnsUnits).length ∧
              ((EQUATIONS.get id).cnsUnits).length ≤ m then
            fit_multidimensions c (EQUATIONS.get id) inputs outputs
              (List.replicate ((EQUATIONS.get id).cnsUnits).length (F.fin 1))
              m ni
          else
            some (List.replicate ((EQUATIONS.get id).cnsUnits).length
              (F.fin 1)) := by
  intro id
  have hk : ((EQUATIONS.get id).cnsUnits).length = 0 ∨
      ((EQUATIONS.get id).cnsUnits).length = 2 ∨
      ((EQUATIONS.get id).cnsUnits).length = 4 := by
    revert id; decide
  refine ⟨hk, ?_⟩
  intro c inputs outputs m ni
  by_cases hg : 0 < ((EQUATIONS.get id).cnsUnits).length ∧
      ((EQUATIONS.get id).cnsUnits).length ≤ m
  · have hlen : (List.replicate ((EQUATIONS.get id).cnsUnits).length
        (F.fin 1)).length ≠ 1 := by
      rw [List.length_replicate]
      rcases hk with h | h | h <;> omega
    unfold equationConstants fit
    rw [if_pos hg, if_neg hlen, if_pos hg]
  · unfold equationConstants
    rw [if_neg hg, if_neg hg]

/-- C7: the catalog entry found by units `inp=[TIME]`, `out=[VEL]` is the
velocity-vs-time equation at index 5; built with constants `[3.0, 2.0]` and
run on inputs `[10.0]` it returns `[23.0]` (`v = v0 + a·t`). -/
theorem velocity_equation_eval :
    find_equation_by_units [MksUnit.time] [MksUnit.velocity] = [5] ∧
    EQUATIONS[5]? = some velocityEquation ∧
    velocityEquation.run defaultCollab [F.fin 3, F.fin 2] [F.fin 10] =
      some [F.fin 23] := by
  refine ⟨by decide, rfl, ?_⟩
  show some [F.fadd (F.fin 3) (F.fmul (F.fin 2) (F.fin 10))] = some [F.fin 23]
  have : F.fadd (F.fin 3) (F.fmul (F.fin 2) (F.fin 10)) = F.fin (3 + 2 * 10) :=
    rfl
  rw [this]
  norm_num

/-- C1: whenever `find_equation` returns a list, that list is sorted
ascending by reduced χ², and among entries with equal χ² the one with the
smaller catalog index comes first. -/
theorem find_equation_sorted (c : Collab) (uin uout : List MksUnit)
    (inputs outputs : List F) (l : List (ℕ × F))
    (h : find_equation c uin uout inputs outputs = some l) :
    l.Pairwise rankedBefore := by
  unfold find_equation at h
  cases hc : collectFits c inputs outputs (find_equation_by_units uin uout) with
  | none => rw [hc] at h; exact Option.noConfusion h
  | some eqs =>
    rw [hc] at h
    have hfst := collectFits_fst hc
    have hpw : eqs.Pairwise (fun a b => a.1 < b.1) := by
      have hp := find_equation_by_units_pairwise uin uout
      rw [← hfst] at hp
      exact List.pairwise_map.mp hp
    exact foldIns_pairwise eqs [] l List.Pairwise.nil hpw
      (fun p hp => absurd hp (List.not_mem_nil p)) h

theorem g7_eval :
    goodness_of_fit defaultCollab 7 [F.fin 10] [F.fin 35] [] =
      some (F.fin 625) := by
  have hpred : predictionsOf defaultCollab distanceEquation
      (List.replicate 2 (F.fin 1)) [F.fin 10] 1 1 = some [F.fin 60] := by
    have h : predictionsOf defaultCollab distanceEquation
        (List.replicate 2 (F.fin 1)) [F.fin 10] 1 1 =
        some [F.fadd (F.fmul (F.fin 1) (F.fin 10))
          (F.fdiv (F.fmul (F.fmul (F.fin 1) (F.fin 10)) (F.fin 10))
            (F.fin 2))] := rfl
    rw [h]
    norm_num [F.fadd_fin, F.fmul_fin, F.fdiv_fin]
  have hg : goodness_of_fit defaultCollab 7 [F.fin 10] [F.fin 35] [] =
      (match predictionsOf defaultCollab distanceEquation
          (List.replicate 2 (F.fin 1)) [F.fin 10] 1 1 with
      | none => none
      | some predictions =>
        if predictions.length < 1 then none
        else some (F.fdiv (chi2Loop [F.fin 35] predictions [] 1 1)
          (F.fin ((1:ℕ):ℚ)))) := rfl
  rw [hg, hpred]
  show some (F.fdiv (chi2Loop [F.fin 35] [F.fin 60] [] 1 1) (F.fin ((1:ℕ):ℚ))) =
    some (F.fin 625)
  have hchi : chi2Loop [F.fin 35] [F.fin 60] [] 1 1 =
      F.fadd (F.fin 0) (F.fdiv (F.fmul (F.fsub (F.fin 35) (F.fin 60))
        (F.fsub (F.fin 35) (F.fin 60))) (F.fmul (F.fin 1) (F.fin 1))) := rfl
  rw [hchi]
  norm_num [F.fadd_fin, F.fmul_fin, F.fsub_fin, F.fdiv_fin]

theorem g8_eval :
    goodness_of_fit defaultCollab 8 [F.fin 10] [F.fin 35] [] =
      some (F.fin 625) := by
  have hpred : predictionsOf defaultCollab distanceByVelEquation
      (List.replicate 2 (F.fin 1)) [F.fin 10] 1 1 = some [F.fin 10] := by
    have h : predictionsOf defaultCollab distanceByVelEquation
        (List.replicate 2 (F.fin 1)) [F.fin 10] 1 1 =
        some [F.fmul (F.fmul (F.fadd (F.fin 1) (F.fin 1)) (F.fin 10))
          (F.fin (1 / 2))] := rfl
    rw [h]
    norm_num [F.fadd_fin, F.fmul_fin]
  have hg : goodness_of_fit defaultCollab 8 [F.fin 10] [F.fin 35] [] =
      (match predictionsOf defaultCollab distanceByVelEquation
          (List.replicate 2 (F.fin 1)) [F.fin 10] 1 1 with
      | none => none
      | some predictions =>
        if predictions.length < 1 then none
        else some (F.fdiv (chi2Loop [F.fin 35] predictions [] 1 1)
          (F.fin ((1:ℕ):ℚ)))) := rfl
  rw [hg, hpred]
  show some (F.fdiv (chi2Loop [F.fin 35] [F.fin 10] [] 1 1) (F.fin ((1:ℕ):ℚ))) =
    some (F.fin 625)
  have hchi : chi2Loop [F.fin 35] [F.fin 10] [] 1 1 =
      F.fadd (F.fin 0) (F.fdiv (F.fmul (F.fsub (F.fin 35) (F.fin 10))
        (F.fsub (F.fin 35) (F.fin 10))) (F.fmul (F.fin 1) (F.fin 1))) := rfl
  rw [hchi]
  norm_num [F.fadd_fin, F.fmul_fin, F.fsub_fin, F.fdiv_fin]

theorem find_equation_sorted_witness :
    ([(7, F.fin 625), (8, F.fin 625)] : List (ℕ × F)).Pairwise rankedBefore := by
  have hids : find_equation_by_units [MksUnit.time] [MksUnit.distance] =
      [7, 8] := rfl
  have hcol : collectFits defaultCollab [F.fin 10] [F.fin 35] [7, 8] =
      some [(7, F.fin 625), (8, F.fin 625)] := by
    rw [collectFits, g7_eval, collectFits, g8_eval, collectFits]
    rfl
  have hcmp : F.fcmp (F.fin 625) (F.fin 625) = some Ordering.eq :=
    F.fcmp_fin_of_eq rfl
  have hsort : sortPairs [(7, F.fin 625), (8, F.fin 625)] =
      some [(7, F.fin 625), (8, F.fin 625)] := by
    simp [sortPairs, insertPair, hcmp, List.foldlM_cons, List.foldlM_nil]
  have hfe : find_equation defaultCollab [MksUnit.time] [MksUnit.distance]
      [F.fin 10] [F.fin 35] = some [(7, F.fin 625), (8, F.fin 625)] := by
    unfold find_equation
    rw [hids, hcol]
    exact hsort
  exact find_equation_sorted defaultCollab [MksUnit.time] [MksUnit.distance]
    [F.fin 10] [F.fin 35] [(7, F.fin 625), (8, F.fin 625)] hfe

/-- C2 counterexample: on the query `inp=[TIME]`, `out=[DIST]` with the
single measurement `NaN → 0.0` both candidates (catalog indices 7 and 8)
score a NaN reduced χ², and `find_equation` aborts (the comparator's
`unwrap` panics, modelled by `none`) instead of returning a list with the
NaN entries ranked last. -/
theorem find_equation_nan_cex :
    find_equation_by_units [MksUnit.time] [MksUnit.distance] = [7, 8] ∧
    goodness_of_fit defaultCollab 7 [F.nan] [F.fin 0] [] = some F.nan ∧
    goodness_of_fit defaultCollab 8 [F.nan] [F.fin 0] [] = some F.nan ∧
    find_equation defaultCollab [MksUnit.time] [MksUnit.distance]
      [F.nan] [F.fin 0] = none :=
  ⟨rfl, rfl, rfl, rfl⟩

/-- C2 as amended: when some collected candidate's reduced χ² is NaN and at
least two candidates were collected, `find_equation` panics in the sort
comparator (`partial_cmp(..).unwrap()` on a NaN) and returns no list at
all — NaN is not mapped to +∞. -/
theorem find_equation_nan_aborts (c : Collab) (uin uout : List MksUnit)
    (inputs outputs : List F) (eqs : List (ℕ × F)) (p : ℕ × F)
    (hcol : collectFits c inputs outputs (find_equation_by_units uin uout) =
      some eqs)
    (hp : p ∈ eqs) (hnan : p.2 = F.nan) (hlen : 2 ≤ eqs.length) :
    find_equation c uin uout inputs outputs = none := by
  unfold find_equation
  rw [hcol]
  exact foldIns_none eqs [] (fun h => absurd h (by simp))
    (Or.inr ⟨p, hp, hnan⟩) (by simpa using hlen)

theorem find_equation_nan_aborts_witness :
    find_equation defaultCollab [MksUnit.time] [MksUnit.distance]
      [F.nan] [F.fin 0] = none :=
  find_equation_nan_aborts defaultCollab [MksUnit.time] [MksUnit.distance]
    [F.nan] [F.fin 0] [(7, F.nan), (8, F.nan)] (7, F.nan)
    rfl (by simp) rfl (by simp)

/-- C4: with an empty sigma buffer, `goodness_of_fit` returns exactly the
raw χ² (sum of squared residuals with every `σ = 1`) divided by
`max(M − K, 1)`, as the spec-side definition `spec_reduced_chi2_unweighted`
states it. -/
theorem goodness_of_fit_unweighted_eq_spec (c : Collab) (id : ℕ)
    (inputs outputs : List F) :
    goodness_of_fit c id inputs outputs [] =
      spec_reduced_chi2_unweighted c id inputs outputs := by
  unfold goodness_of_fit spec_reduced_chi2_unweighted
  cases EQUATIONS[id]? with
  | none => rfl
  | some eb =>
    simp only [List.isEmpty_nil, List.length_nil, true_or, not_true_eq_false,
      if_false]
    by_cases h1 : eb.inpUnits.length = 0
    · rw [if_pos h1, if_pos h1]
    rw [if_neg h1, if_neg h1]
    by_cases h2 : eb.outUnits.length = 0
    · rw [if_pos h2, if_pos h2]
    rw [if_neg h2, if_neg h2]
    by_cases h3 : outputs.length / eb.outUnits.length ≠
        inputs.length / eb.inpUnits.length
    · rw [if_pos h3, if_pos h3]
    rw [if_neg h3, if_neg h3]
    cases hc : equationConstants c eb inputs outputs
        (inputs.length / eb.inpUnits.length) eb.inpUnits.length with
    | none => rfl
    | some cns =>
      dsimp only
      cases hpred : predictionsOf c eb cns inputs
          (inputs.length / eb.inpUnits.length) eb.inpUnits.length with
      | none => rfl
      | some predictions =>
        dsimp only
        by_cases h4 : eb.outUnits.length ≠ 1
        · rw [if_pos h4, if_pos h4]
        rw [if_neg h4, if_neg h4]
        have h4' : eb.outUnits.length = 1 := not_ne_iff.mp h4
        by_cases h5 : predictions.length <
            inputs.length / eb.inpUnits.length * eb.outUnits.length
        · rw [if_pos h5, if_pos h5]
        rw [if_neg h5, if_neg h5]
        rw [h4']
        rw [chi2Loop_empty_sigmas]
        congr 1
        congr 1
        rw [dof_eq_max]

/-- C10: whatever `goodness_of_fit` returns is NaN or nonnegative (possibly
+∞) — it is a sum of squared terms over squared weights, divided by a
positive degrees-of-freedom count. -/
theorem goodness_of_fit_nonneg (c : Collab) (id : ℕ)
    (inputs outputs ssigmas : List F) (v : F)
    (h : goodness_of_fit c id inputs outputs ssigmas = some v) :
    v = F.nan ∨ F.fle (F.fin 0) v := by
  unfold goodness_of_fit at h
  cases hE : EQUATIONS[id]? with
  | none => rw [hE] at h; exact Option.noConfusion h
  | some eb =>
    rw [hE] at h
    dsimp only at h
    split at h
    · exact Option.noConfusion h
    split at h
    · exact Option.noConfusion h
    split at h
    · exact Option.noConfusion h
    split at h
    · exact Option.noConfusion h
    split at h
    · exact Option.noConfusion h
    case _ cns hc =>
      split at h
      · exact Option.noConfusion h
      case _ predictions hpred =>
        split at h
        · exact Option.noConfusion h
        split at h
        · exact Option.noConfusion h
        have hv := Option.some.inj h
        subst hv
        have hchi : F.nnOrNan (chi2Loop outputs predictions ssigmas
            (inputs.length / eb.inpUnits.length) eb.outUnits.length) := by
          refine foldl_fadd_nnOrNan _ _ _ (Or.inr (Or.inr rfl)) ?_
          intro a i ha
          refine foldl_fadd_nnOrNan _ _ _ ha ?_
          intro a2 j ha2
          exact F.fadd_nnOrNan ha2
            (F.fdiv_nnOrNan (F.sq_nnOrNan _) (F.sq_nnOrNan _))
        refine F.fdiv_nnOrNan hchi ?_
        exact F.nnOrNan_fin (by positivity)

theorem goodness_of_fit_nonneg_witness :
    F.fin 625 = F.nan ∨ F.fle (F.fin 0) (F.fin 625) :=
  goodness_of_fit_nonneg defaultCollab 7 [F.fin 10] [F.fin 35] []
    (F.fin 625) g7_eval
